import Mathlib

/-!
# A model of the polyline offset engine

This file embeds the geometry core of `leaflet.polylineoffset.js` in Lean.
The exact-arithmetic primitives (`signedArea`, `intersects`, `lineEquation`,
`intersection`) and the seam-cutting scan (`cutInnerAngles`) are stated over an
arbitrary linear ordered field, so they can be run on `ℚ`.  The parts that use
trigonometry (`translatePoint`, `offsetPointLine`, `circularArc`,
`joinLineSegments`) are modelled over `ℝ`, with `atan2` translated from the
IEEE `Math.atan2` specification (range `(-π, π]`).

The JavaScript mutation of the segment array in `cutInnerAngles` is modelled by
explicit state passing: `cutStep` performs one iteration of the outer `while`
loop and `cutRun` iterates it with a fuel argument; the fuel
`segments.length` always suffices because the measure `length - cursor`
strictly decreases at every iteration (proved below), so the fuel never runs
out and the model computes exactly what the unbounded loop computes.

The JavaScript `==` between point objects in `cutInnerAngles` is reference
equality.  Two renderings of the guard are developed.  `cutStep` renders it
as coordinate equality; this agrees with the program whenever the compared
endpoints are either one shared allocation (an arc endpoint pushed by
reference, or a clip point stored into both clipped segments) or
coordinate-distinct, which covers the seam-cutter theorems stated over it,
but it diverges at equal-offset-heading joins, where no arc is emitted and
two coordinate-equal endpoints sit in distinct allocations.
`cutStepRef`/`cutInnerAnglesRef` model the reference-equality guard
faithfully, tagging every point with its allocation identifier; the
zero-offset analysis, where the divergence is reachable, uses them.
-/

namespace PolylineOffset

/-- A planar point `{x, y}`.  The JavaScript source stores binary floating
point numbers; the model uses an arbitrary linear ordered field. -/
structure Point (α : Type) where
  x : α
  y : α
deriving DecidableEq

/-- A line segment, stored in the source as the two-element array
`[startPoint, endPoint]`. -/
abbrev Segment (α : Type) := Point α × Point α

variable {α : Type} [LinearOrderedField α] {β : Type}

instance : Inhabited (Point α) :=
  ⟨⟨0, 0⟩⟩

/-- `forEachPair(list, cb)` (source line 12) calls `cb(list[i-1], list[i])`
for `i = 1 … length-1`: the visited pairs are `list.zip list.tail`. -/
def zipPairs (l : List β) : List (β × β) :=
  l.zip l.tail

/-- `signedArea(p1, p2, p3)` (source line 73): twice the signed area of the
triangle `p1 p2 p3`; its sign tells on which side of the directed line
`p1 → p2` the point `p3` lies. -/
def signedArea (p1 p2 p3 : Point α) : α :=
  (p2.x - p1.x) * (p3.y - p1.y) - (p3.x - p1.x) * (p2.y - p1.y)

/-- `intersects(l1a, l1b, l2a, l2b)` (source line 76): proper-crossing test,
true when each segment's endpoints lie strictly on opposite sides of the other
segment's supporting line. -/
def intersects (l1a l1b l2a l2b : Point α) : Prop :=
  signedArea l1a l1b l2a * signedArea l1a l1b l2b < 0 ∧
    signedArea l2a l2b l1a * signedArea l2a l2b l1b < 0

instance (l1a l1b l2a l2b : Point α) : Decidable (intersects l1a l1b l2a l2b) := by
  unfold intersects
  exact instDecidableAnd

/-- Result type of `lineEquation` (source line 24): the source returns either
`{a, b}` (the line `y = a·x + b`) or `{x}` (the vertical line at that `x`);
the two record shapes become two constructors. -/
inductive LineEq (α : Type) where
  | vertical (x : α)
  | slope (a b : α)
deriving DecidableEq

/-- `lineEquation(pt1, pt2)` (source line 24).  Returns `none` for a
degenerate pair (`pt1 = pt2`), a `vertical` marker when the segment is
vertical, and the slope/intercept pair otherwise.  The slope is computed only
after `pt1.x ≠ pt2.x` is established, so the source never divides by zero. -/
def lineEquation (pt1 pt2 : Point α) : Option (LineEq α) :=
  if pt1.x = pt2.x then
    if pt1.y = pt2.y then none else some (.vertical pt1.x)
  else
    let a := (pt2.y - pt1.y) / (pt2.x - pt1.x)
    some (.slope a (pt1.y - a * pt1.x))

/-- `intersection(l1a, l1b, l2a, l2b)` (source line 40): the crossing point of
the two infinite lines, or `none` when no unique crossing exists, following
the source's branch order exactly. -/
def intersection (l1a l1b l2a l2b : Point α) : Option (Point α) :=
  match lineEquation l1a l1b, lineEquation l2a l2b with
  | none, _ => none
  | some _, none => none
  | some (.vertical _), some (.vertical _) => none
  | some (.vertical x1), some (.slope a2 b2) => some ⟨x1, a2 * x1 + b2⟩
  | some (.slope a1 b1), some (.vertical x2) => some ⟨x2, a1 * x2 + b1⟩
  | some (.slope a1 b1), some (.slope a2 b2) =>
    if a1 = a2 then none
    else
      let x := (b2 - b1) / (a1 - a2)
      some ⟨x, a1 * x + b1⟩

/-- `Array.prototype.splice(start, count)` used as pure removal
(source lines 223 and 229). -/
def removeChunk (l : List β) (start count : ℕ) : List β :=
  l.take start ++ l.drop (start + count)

/-- The inner `while` loop of `cutInnerAngles` (source lines 217-235): walk
`j` downward looking for a segment that properly intersects the fixed target
segment `segments[i+1]`; on a hit return `j` together with the supporting-line
intersection point.  The source assigns `p = intersection(...)` directly; a
proper crossing guarantees the lines are neither parallel nor degenerate, so
the `Option` is `some` there and the `getD` default is never used. -/
def backSearch (segs : List (Segment α)) (tgt : Segment α) : ℕ → Option (ℕ × Point α)
  | 0 =>
    if intersects (segs[0]!).1 (segs[0]!).2 tgt.1 tgt.2 then
      some (0, (intersection (segs[0]!).1 (segs[0]!).2 tgt.1 tgt.2).getD ⟨0, 0⟩)
    else none
  | j + 1 =>
    if intersects (segs[j + 1]!).1 (segs[j + 1]!).2 tgt.1 tgt.2 then
      some (j + 1, (intersection (segs[j + 1]!).1 (segs[j + 1]!).2 tgt.1 tgt.2).getD ⟨0, 0⟩)
    else backSearch segs tgt j

/-- One iteration of the outer `while (true)` loop of `cutInnerAngles`
(source lines 208-236), returning the updated list and cursor, or `none` when
the loop breaks (`i + 1 >= segments.length`).  The three live branches are:
shared endpoint → advance; backward search hit at `j` → clip segment `j`'s
end and segment `i+1`'s start to the intersection point, splice out the
segments strictly between them, resume at `j + 1`; search exhausted → splice
out segment `i+1` and advance the cursor.  The shared-endpoint guard
`segments[i][1] == segments[i+1][0]` (source line 212) is reference equality
between point objects; here it is rendered as coordinate equality, which
matches the program's branch choice except when two coordinate-equal
endpoints sit in distinct allocations (reachable only at equal-offset-heading
joins, where no arc is emitted between the two offset arrays) — see
`cutStepRef` for the allocation-faithful rendering. -/
def cutStep (segs : List (Segment α)) (i : ℕ) : Option (List (Segment α) × ℕ) :=
  if i + 1 < segs.length then
    if (segs[i]!).2 = (segs[i + 1]!).1 then some (segs, i + 1)
    else
      match backSearch segs segs[i + 1]! i with
      | some (j, p) =>
        let clipped := (segs.set j ((segs[j]!).1, p)).set (i + 1) (p, (segs[i + 1]!).2)
        some (removeChunk clipped (j + 1) (i - j), j + 1)
      | none => some (segs.eraseIdx (i + 1), i + 1)
  else none

/-- Iterate `cutStep` with fuel.  `cutRun (segs.length - i) segs i` computes
the exact result of the source's unbounded loop: the measure
`segs.length - i` strictly decreases at every iteration, so the fuel is never
exhausted (this is proved as the termination claim below). -/
def cutRun : ℕ → List (Segment α) → ℕ → List (Segment α)
  | 0, segs, _ => segs
  | fuel + 1, segs, i =>
    match cutStep segs i with
    | some (segs', i') => cutRun fuel segs' i'
    | none => segs

/-- `cutInnerAngles(segments)` (source line 206): run the seam-cutting scan,
then emit the first segment's start point followed by every remaining
segment's end point.  On the empty list the source would read
`segments[0][0]` as `undefined`; the pipeline never calls it with an empty
list, and the model returns `[]` in that unreachable case. -/
def cutInnerAngles (segments : List (Segment α)) : List (Point α) :=
  match cutRun segments.length segments 0 with
  | [] => []
  | s :: ss => s.1 :: (s :: ss).map (fun t => t.2)

/-- One iteration of the seam-cutting scan as the specification document
describes it: identical to `cutStep` except that after the unresolved-search
splice of segment `i+1` the scan "retries at the same `i`" instead of
advancing the cursor.  This definition follows the specification's words and
exists only to be compared against the source-derived `cutStep`. -/
def cutStepRetry (segs : List (Segment α)) (i : ℕ) : Option (List (Segment α) × ℕ) :=
  if i + 1 < segs.length then
    if (segs[i]!).2 = (segs[i + 1]!).1 then some (segs, i + 1)
    else
      match backSearch segs segs[i + 1]! i with
      | some (j, p) =>
        let clipped := (segs.set j ((segs[j]!).1, p)).set (i + 1) (p, (segs[i + 1]!).2)
        some (removeChunk clipped (j + 1) (i - j), j + 1)
      | none => some (segs.eraseIdx (i + 1), i)
  else none

/-- Fuel iteration of `cutStepRetry` (the retry variant also strictly
decreases `segs.length - i`, so the same fuel suffices). -/
def cutRunRetry : ℕ → List (Segment α) → ℕ → List (Segment α)
  | 0, segs, _ => segs
  | fuel + 1, segs, i =>
    match cutStepRetry segs i with
    | some (segs', i') => cutRunRetry fuel segs' i'
    | none => segs

/-- The seam cutter as the specification document describes it (retry at the
same cursor after an unresolved-search splice); compared against the
source-derived `cutInnerAngles`. -/
def cutInnerAnglesSpecRetry (segments : List (Segment α)) : List (Point α) :=
  match cutRunRetry segments.length segments 0 with
  | [] => []
  | s :: ss => s.1 :: (s :: ss).map (fun t => t.2)

/-- A point object as the JavaScript runtime stores it: an allocation
identifier together with the coordinates.  The `==` of source line 212 is
reference equality between point objects: true exactly when the two slots
hold the same allocation, so coordinate-equal points in distinct allocations
are not `==`. -/
structure PointObj (α : Type) where
  ref : ℕ
  val : Point α
deriving DecidableEq

instance : Inhabited (PointObj α) :=
  ⟨⟨0, ⟨0, 0⟩⟩⟩

/-- A segment whose endpoint slots hold point objects. -/
abbrev SegmentObj (α : Type) := PointObj α × PointObj α

/-- The backward search of `cutInnerAngles` over object segments: the
geometric tests read only the coordinates of the objects. -/
def backSearchRef (segs : List (SegmentObj α)) (tgt : SegmentObj α) :
    ℕ → Option (ℕ × Point α)
  | 0 =>
    if intersects (segs[0]!).1.val (segs[0]!).2.val tgt.1.val tgt.2.val then
      some (0,
        (intersection (segs[0]!).1.val (segs[0]!).2.val tgt.1.val tgt.2.val).getD ⟨0, 0⟩)
    else none
  | j + 1 =>
    if intersects (segs[j + 1]!).1.val (segs[j + 1]!).2.val tgt.1.val tgt.2.val then
      some (j + 1,
        (intersection (segs[j + 1]!).1.val (segs[j + 1]!).2.val tgt.1.val
            tgt.2.val).getD ⟨0, 0⟩)
    else backSearchRef segs tgt j

/-- One iteration of the seam-cutting loop with the reference-equality guard
of the source: the shared-endpoint test compares allocation identifiers, and
the clip branch allocates one fresh object (identifier `fresh`) and stores
that same object into both clipped slots, exactly as
`p = intersection(...); segments[j][1] = p; segments[i+1][0] = p` shares a
single allocation.  Apart from the guard and the allocation bookkeeping the
transformations are those of `cutStep`. -/
def cutStepRef (segs : List (SegmentObj α)) (i fresh : ℕ) :
    Option (List (SegmentObj α) × ℕ × ℕ) :=
  if i + 1 < segs.length then
    if (segs[i]!).2.ref = (segs[i + 1]!).1.ref then some (segs, i + 1, fresh)
    else
      match backSearchRef segs segs[i + 1]! i with
      | some (j, p) =>
        let pObj : PointObj α := ⟨fresh, p⟩
        let clipped := (segs.set j ((segs[j]!).1, pObj)).set (i + 1) (pObj, (segs[i + 1]!).2)
        some (removeChunk clipped (j + 1) (i - j), j + 1, fresh + 1)
      | none => some (segs.eraseIdx (i + 1), i + 1, fresh)
  else none

/-- Fuel iteration of `cutStepRef`.  The three transformations are those of
`cutStep`, so the measure `length - cursor` strictly decreases at every
iteration regardless of which guard selects the branch, and the fuel
`segments.length` used below is never exhausted. -/
def cutRunRef : ℕ → List (SegmentObj α) → ℕ → ℕ → List (SegmentObj α)
  | 0, segs, _, _ => segs
  | fuel + 1, segs, i, fresh =>
    match cutStepRef segs i fresh with
    | some (segs', i', fresh') => cutRunRef fuel segs' i' fresh'
    | none => segs

/-- `cutInnerAngles` under the reference-equality guard, on a segment list
whose endpoint objects carry their allocation identifiers; `fresh` is any
identifier above all identifiers in the input (the runtime allocates fresh
objects).  Returns the coordinates of the surviving points. -/
def cutInnerAnglesRef (segments : List (SegmentObj α)) (fresh : ℕ) : List (Point α) :=
  match cutRunRef segments.length segments 0 fresh with
  | [] => []
  | s :: ss => s.1.val :: (s :: ss).map (fun t => t.2.val)

/-- `Math.atan2(y, x)`: the angle of the vector `(x, y)` in `(-π, π]`,
written with `Real.arctan` case by case exactly as IEEE `atan2` is specified
on (signless) real inputs. -/
noncomputable def atan2 (y x : ℝ) : ℝ :=
  if 0 < x then Real.arctan (y / x)
  else if x < 0 then
    if 0 ≤ y then Real.arctan (y / x) + Real.pi else Real.arctan (y / x) - Real.pi
  else
    if 0 < y then Real.pi / 2 else if y < 0 then -(Real.pi / 2) else 0

/-- `translatePoint(pt, dist, heading)` (source line 81). -/
noncomputable def translatePoint (pt : Point ℝ) (dist heading : ℝ) : Point ℝ :=
  ⟨pt.x + dist * Real.cos heading, pt.y + dist * Real.sin heading⟩

/-- The record pushed by `offsetPointLine` (source line 99): the offset
heading, the original segment and its translated copy. -/
structure OffsetSegment where
  offsetAngle : ℝ
  original : Segment ℝ
  offset : Segment ℝ

/-- `segmentAsVector(s)` (source line 150). -/
def segmentAsVector (s : Segment ℝ) : Point ℝ :=
  ⟨s.2.x - s.1.x, s.2.y - s.1.y⟩

/-- `getSignedAngle(s1, s2)` (source line 157): `atan2(cross, dot)` of the two
direction vectors. -/
noncomputable def getSignedAngle (s1 s2 : Segment ℝ) : ℝ :=
  atan2
    ((segmentAsVector s1).x * (segmentAsVector s2).y -
      (segmentAsVector s1).y * (segmentAsVector s2).x)
    ((segmentAsVector s1).x * (segmentAsVector s2).x +
      (segmentAsVector s1).y * (segmentAsVector s2).y)

/-- The circle samples pushed by the `for` loop of `circularArc` (source
lines 190-194).  The loop pushes `translatePoint(center, distance, alpha)` for
`alpha = startAngle + step, startAngle + 2·step, …` while `alpha < endAngle`;
with exact reals the pushed angles are `startAngle + k·step` for
`1 ≤ k < (endAngle - startAngle)/step`, of which there are
`⌈(endAngle - startAngle)/step⌉₊ - 1`. -/
noncomputable def arcMids (s1 s2 : OffsetSegment) (distance : ℝ) : List (Point ℝ) :=
  let center := s1.original.2
  let startAngle := if 0 < distance then s2.offsetAngle else s1.offsetAngle
  let endAngle0 := if 0 < distance then s1.offsetAngle else s2.offsetAngle
  let endAngle := if endAngle0 < startAngle then endAngle0 + 2 * Real.pi else endAngle0
  let step := Real.pi / 8
  let n := ⌈(endAngle - startAngle) / step⌉₊ - 1
  (List.range n).map fun k =>
    translatePoint center distance (startAngle + (k + 1 : ℕ) * step)

/-- The full point list built by the arc branch of `circularArc` (source
lines 179-197): the relevant offset endpoint, the circle samples, the other
offset endpoint, reversed when the offset is to the right (`rightOffset`
selects both the endpoints and the final reversal, so it is factored into one
conditional here). -/
noncomputable def arcPoints (s1 s2 : OffsetSegment) (distance : ℝ) : List (Point ℝ) :=
  if 0 < distance then
    ((s2.offset.1 :: arcMids s1 s2 distance) ++ [s1.offset.2]).reverse
  else
    (s1.offset.2 :: arcMids s1 s2 distance) ++ [s2.offset.1]

/-- `circularArc(s1, s2, distance)` (source line 166): nothing when the two
offset headings coincide, nothing on an inner turn
(`signedAngle * distance > 0`), otherwise the arc sample points paired up into
connecting segments. -/
noncomputable def circularArc (s1 s2 : OffsetSegment) (distance : ℝ) : List (Segment ℝ) :=
  if s1.offsetAngle = s2.offsetAngle then []
  else if 0 < getSignedAngle s1.offset s2.offset * distance then []
  else zipPairs (arcPoints s1 s2 distance)

/-- `joinOuterAngles(s1, s2, offset)` (source line 126): the source filters
the arc segments through `x => x`, which keeps every element because the
elements are arrays (always truthy), so the filter is the identity. -/
noncomputable def joinOuterAngles (s1 s2 : OffsetSegment) (offset : ℝ) : List (Segment ℝ) :=
  circularArc s1 s2 offset

/-- The record pushed for one pair `(a, b)` by `offsetPointLine` (source
lines 96-106): the segment heading is `atan2(a.y - b.y, a.x - b.x)` (from `b`
to `a`), the offset heading subtracts 90°, and both endpoints are translated
by `distance` along the offset heading. -/
noncomputable def offsetSeg (a b : Point ℝ) (distance : ℝ) : OffsetSegment :=
  let segmentAngle := atan2 (a.y - b.y) (a.x - b.x)
  let offsetAngle := segmentAngle - Real.pi / 2
  { offsetAngle := offsetAngle
    original := (a, b)
    offset := (translatePoint a distance offsetAngle, translatePoint b distance offsetAngle) }

/-- `offsetPointLine(points, distance)` (source line 89): walk the
consecutive pairs, skip coincident pairs (`a.x === b.x && a.y === b.y`), and
push one `OffsetSegment` per remaining pair. -/
noncomputable def offsetPointLine (points : List (Point ℝ)) (distance : ℝ) :
    List OffsetSegment :=
  (zipPairs points).foldl
    (fun acc ab => if ab.1 = ab.2 then acc else acc ++ [offsetSeg ab.1 ab.2 distance])
    []

/-- `joinLineSegments(segments, offset)` (source line 132): when the list is
nonempty (`first && last`), start from the first offset segment, then for each
adjacent pair append the join segments followed by the next offset segment,
and hand the whole list to the seam cutter; otherwise return the empty point
list untouched. -/
noncomputable def joinLineSegments (segments : List OffsetSegment) (offset : ℝ) :
    List (Point ℝ) :=
  match segments with
  | [] => []
  | s :: rest =>
    cutInnerAngles
      ((zipPairs (s :: rest)).foldl
        (fun acc st => acc ++ joinOuterAngles st.1 st.2 offset ++ [st.2.offset])
        [s.offset])

/-- Proof-side recursive form of the `forEachPair` accumulation in
`joinLineSegments`: the join segments and next offset segment appended for
each adjacent pair.  `joinFoldl_eq_buildJoined` below connects it to the
`foldl` in `joinLineSegments`. -/
noncomputable def buildJoined : OffsetSegment → List OffsetSegment → ℝ → List (Segment ℝ)
  | _, [], _ => []
  | s, t :: rest, o => joinOuterAngles s t o ++ t.offset :: buildJoined t rest o

/-! ## Basic lemmas about the list helpers -/

theorem zipPairs_cons₂ (a b : β) (l : List β) :
    zipPairs (a :: b :: l) = (a, b) :: zipPairs (b :: l) :=
  rfl

theorem zipPairs_length (l : List β) : (zipPairs l).length = l.length - 1 := by
  simp [zipPairs]

theorem foldl_concat_shift {γ δ : Type} (g : γ → List δ) :
    ∀ (ps : List γ) (init : List δ),
      ps.foldl (fun acc p => acc ++ g p) init =
        init ++ ps.foldl (fun acc p => acc ++ g p) [] := by
  intro ps
  induction ps with
  | nil => intro init; simp
  | cons p ps ih =>
    intro init
    simp only [List.foldl_cons]
    rw [ih (init ++ g p), ih ([] ++ g p)]
    simp

/-! ## Claim C6: the proper-crossing test -/

/-- Claim C6: `intersects` holds exactly when the endpoints of each segment
lie strictly on opposite sides of the other segment's supporting line (the
side being the sign of `signedArea`), and in particular it is false whenever
any of the four endpoints is collinear with the other segment's line. -/
theorem intersects_iff_strictly_opposite (l1a l1b l2a l2b : Point α) :
    (intersects l1a l1b l2a l2b ↔
      ((0 < signedArea l1a l1b l2a ∧ signedArea l1a l1b l2b < 0) ∨
        (signedArea l1a l1b l2a < 0 ∧ 0 < signedArea l1a l1b l2b)) ∧
      ((0 < signedArea l2a l2b l1a ∧ signedArea l2a l2b l1b < 0) ∨
        (signedArea l2a l2b l1a < 0 ∧ 0 < signedArea l2a l2b l1b))) ∧
    ((signedArea l1a l1b l2a = 0 ∨ signedArea l1a l1b l2b = 0 ∨
        signedArea l2a l2b l1a = 0 ∨ signedArea l2a l2b l1b = 0) →
      ¬intersects l1a l1b l2a l2b) := by
  constructor
  · unfold intersects
    rw [mul_neg_iff, mul_neg_iff]
  · rintro (h | h | h | h) ⟨h1, h2⟩
    · rw [h, zero_mul] at h1
      exact lt_irrefl 0 h1
    · rw [h, mul_zero] at h1
      exact lt_irrefl 0 h1
    · rw [h, zero_mul] at h2
      exact lt_irrefl 0 h2
    · rw [h, mul_zero] at h2
      exact lt_irrefl 0 h2

theorem intersects_iff_strictly_opposite_witness :
    (signedArea (⟨0, 0⟩ : Point ℚ) ⟨1, 0⟩ ⟨2, 0⟩ = 0 ∨
        signedArea (⟨0, 0⟩ : Point ℚ) ⟨1, 0⟩ ⟨3, 1⟩ = 0 ∨
        signedArea (⟨2, 0⟩ : Point ℚ) ⟨3, 1⟩ ⟨0, 0⟩ = 0 ∨
        signedArea (⟨2, 0⟩ : Point ℚ) ⟨3, 1⟩ ⟨1, 0⟩ = 0) ∧
      ¬intersects (⟨0, 0⟩ : Point ℚ) ⟨1, 0⟩ ⟨2, 0⟩ ⟨3, 1⟩ :=
  ⟨Or.inl (by norm_num [signedArea]),
    (intersects_iff_strictly_opposite ⟨0, 0⟩ ⟨1, 0⟩ ⟨2, 0⟩ ⟨3, 1⟩).2
      (Or.inl (by norm_num [signedArea]))⟩

/-! ## Claim C10: the empty pipeline -/

/-- Claim C10: `joinLineSegments` on the empty offset-segment list (the
`first && last` guard fails) returns the empty point sequence, and this is
what the pipeline produces for an empty or single-point input path. -/
theorem joinLineSegments_empty (offset : ℝ) :
    joinLineSegments [] offset = [] ∧
      (∀ d : ℝ, joinLineSegments (offsetPointLine [] d) offset = []) ∧
      ∀ (d : ℝ) (p : Point ℝ), joinLineSegments (offsetPointLine [p] d) offset = [] :=
  ⟨rfl, fun _ => rfl, fun _ _ => rfl⟩

/-! ## Claim C4: when the join resolver emits nothing -/

theorem arcPoints_length_ge (s1 s2 : OffsetSegment) (d : ℝ) :
    2 ≤ (arcPoints s1 s2 d).length := by
  by_cases hd : 0 < d <;> simp [arcPoints, hd]

/-- Claim C4: `circularArc` returns the empty list exactly when the two
offset headings are identical or the signed turn angle between the offset
directions times the distance is strictly positive (the inner-turn case); in
every other case at least one connecting segment is emitted. -/
theorem circularArc_empty_iff (s1 s2 : OffsetSegment) (d : ℝ) :
    circularArc s1 s2 d = [] ↔
      s1.offsetAngle = s2.offsetAngle ∨ 0 < getSignedAngle s1.offset s2.offset * d := by
  unfold circularArc
  split_ifs with h1 h2
  · simp [h1]
  · simp [h2]
  · simp only [h1, h2, or_false, iff_false]
    intro hn
    have hlen := zipPairs_length (arcPoints s1 s2 d)
    have hge := arcPoints_length_ge s1 s2 d
    rw [hn] at hlen
    simp at hlen
    omega

/-! ## Claim C7: the infinite-line intersection -/

theorem point_eq_iff (p q : Point β) : p = q ↔ p.x = q.x ∧ p.y = q.y := by
  cases p
  cases q
  simp

theorem lineEquation_eq_none_iff (p1 p2 : Point α) :
    lineEquation p1 p2 = none ↔ p1 = p2 := by
  by_cases hx : p1.x = p2.x <;> by_cases hy : p1.y = p2.y <;>
    simp [lineEquation, hx, hy, point_eq_iff]

theorem lineEquation_eq_vertical_iff (p1 p2 : Point α) (c : α) :
    lineEquation p1 p2 = some (.vertical c) ↔ p1.x = p2.x ∧ p1.y ≠ p2.y ∧ c = p1.x := by
  by_cases hx : p1.x = p2.x <;> by_cases hy : p1.y = p2.y <;>
    simp [lineEquation, hx, hy, eq_comm]

theorem lineEquation_eq_slope_iff (p1 p2 : Point α) (a b : α) :
    lineEquation p1 p2 = some (.slope a b) ↔
      p1.x ≠ p2.x ∧ a = (p2.y - p1.y) / (p2.x - p1.x) ∧ b = p1.y - a * p1.x := by
  by_cases hx : p1.x = p2.x
  · by_cases hy : p1.y = p2.y <;> simp [lineEquation, hx, hy]
  · constructor
    · intro h
      unfold lineEquation at h
      rw [if_neg hx] at h
      simp only [Option.some.injEq, LineEq.slope.injEq] at h
      obtain ⟨h₁, h₂⟩ := h
      refine ⟨hx, h₁.symm, ?_⟩
      rw [← h₁]
      exact h₂.symm
    · rintro ⟨-, ha, hb⟩
      unfold lineEquation
      rw [if_neg hx]
      simp only [Option.some.injEq, LineEq.slope.injEq]
      refine ⟨ha.symm, ?_⟩
      rw [hb, ha]

theorem signedArea_zero_vertical (a b q : Point α) (hx : a.x = b.x) (hy : a.y ≠ b.y) :
    signedArea a b q = 0 ↔ q.x = a.x := by
  have hb : b.x - a.x = 0 := by rw [hx, sub_self]
  unfold signedArea
  rw [hb, zero_mul, zero_sub, neg_eq_zero, mul_eq_zero]
  simp [sub_eq_zero, Ne.symm hy]

theorem signedArea_zero_slope (a b q : Point α) (hx : a.x ≠ b.x) :
    signedArea a b q = 0 ↔
      q.y = (b.y - a.y) / (b.x - a.x) * q.x + (a.y - (b.y - a.y) / (b.x - a.x) * a.x) := by
  have hΔ : b.x - a.x ≠ 0 := sub_ne_zero.mpr (Ne.symm hx)
  unfold signedArea
  constructor
  · intro h
    field_simp
    linear_combination h
  · intro h
    field_simp at h
    linear_combination h

/-- Claim C7: `intersection` returns `none` exactly for a degenerate point
pair, two vertical lines (same or different `x`; the same-`x` case is a pair
of coincident lines), or two non-vertical lines of equal slope; in every
other case it returns `some p` where `p` is the unique point lying on both
infinite supporting lines (`signedArea ... = 0` characterises membership in
the line through two distinct points).  The vertical case is handled by the
distinct `LineEq.vertical` representation, never by a zero division. -/
theorem intersection_characterization (l1a l1b l2a l2b : Point α) :
    (intersection l1a l1b l2a l2b = none ↔
      l1a = l1b ∨ l2a = l2b ∨ (l1a.x = l1b.x ∧ l2a.x = l2b.x) ∨
        (l1a.x ≠ l1b.x ∧ l2a.x ≠ l2b.x ∧
          (l1b.y - l1a.y) / (l1b.x - l1a.x) = (l2b.y - l2a.y) / (l2b.x - l2a.x))) ∧
    ∀ p, intersection l1a l1b l2a l2b = some p →
      signedArea l1a l1b p = 0 ∧ signedArea l2a l2b p = 0 ∧
        ∀ q, signedArea l1a l1b q = 0 → signedArea l2a l2b q = 0 → q = p := by
  constructor
  · rcases h1 : lineEquation l1a l1b with _ | le1
    · have e1 : l1a = l1b := (lineEquation_eq_none_iff _ _).1 h1
      rw [e1] at h1 ⊢
      simp [intersection, h1]
    · rcases h2 : lineEquation l2a l2b with _ | le2
      · have e2 : l2a = l2b := (lineEquation_eq_none_iff _ _).1 h2
        rw [e2] at h2 ⊢
        simp [intersection, h1, h2]
      · rcases le1 with x1 | ⟨a1, b1⟩ <;> rcases le2 with x2 | ⟨a2, b2⟩
        · obtain ⟨hx1, hy1, hc1⟩ := (lineEquation_eq_vertical_iff _ _ _).1 h1
          obtain ⟨hx2, hy2, hc2⟩ := (lineEquation_eq_vertical_iff _ _ _).1 h2
          simp [intersection, h1, h2, hx1, hx2]
        · obtain ⟨hx1, hy1, hc1⟩ := (lineEquation_eq_vertical_iff _ _ _).1 h1
          obtain ⟨hx2, ha2, hb2⟩ := (lineEquation_eq_slope_iff _ _ _ _).1 h2
          constructor
          · intro h
            simp [intersection, h1, h2] at h
          · rintro (h | h | ⟨hA, hB⟩ | ⟨hA, hB, hC⟩) <;> exfalso
            · rw [(lineEquation_eq_none_iff l1a l1b).2 h] at h1
              exact absurd h1 (by simp)
            · rw [(lineEquation_eq_none_iff l2a l2b).2 h] at h2
              exact absurd h2 (by simp)
            · exact hx2 hB
            · exact hA hx1
        · obtain ⟨hx1, ha1, hb1⟩ := (lineEquation_eq_slope_iff _ _ _ _).1 h1
          obtain ⟨hx2, hy2, hc2⟩ := (lineEquation_eq_vertical_iff _ _ _).1 h2
          constructor
          · intro h
            simp [intersection, h1, h2] at h
          · rintro (h | h | ⟨hA, hB⟩ | ⟨hA, hB, hC⟩) <;> exfalso
            · rw [(lineEquation_eq_none_iff l1a l1b).2 h] at h1
              exact absurd h1 (by simp)
            · rw [(lineEquation_eq_none_iff l2a l2b).2 h] at h2
              exact absurd h2 (by simp)
            · exact hx1 hA
            · exact hB hx2
        · obtain ⟨hx1, ha1, hb1⟩ := (lineEquation_eq_slope_iff _ _ _ _).1 h1
          obtain ⟨hx2, ha2, hb2⟩ := (lineEquation_eq_slope_iff _ _ _ _).1 h2
          by_cases hs : a1 = a2
          · constructor
            · intro _
              refine Or.inr (Or.inr (Or.inr ⟨hx1, hx2, ?_⟩))
              rw [← ha1, ← ha2, hs]
            · intro _
              simp [intersection, h1, h2, hs]
          · constructor
            · intro h
              simp [intersection, h1, h2, hs] at h
            · rintro (h | h | ⟨hA, hB⟩ | ⟨hA, hB, hC⟩) <;> exfalso
              · rw [(lineEquation_eq_none_iff l1a l1b).2 h] at h1
                exact absurd h1 (by simp)
              · rw [(lineEquation_eq_none_iff l2a l2b).2 h] at h2
                exact absurd h2 (by simp)
              · exact hx1 hA
              · rw [← ha1, ← ha2] at hC
                exact hs hC
  · intro p hp
    rcases h1 : lineEquation l1a l1b with _ | le1
    · simp [intersection, h1] at hp
    · rcases h2 : lineEquation l2a l2b with _ | le2
      · simp [intersection, h1, h2] at hp
      · rcases le1 with x1 | ⟨a1, b1⟩ <;> rcases le2 with x2 | ⟨a2, b2⟩
        · simp [intersection, h1, h2] at hp
        · obtain ⟨hx1, hy1, hc1⟩ := (lineEquation_eq_vertical_iff _ _ _).1 h1
          obtain ⟨hx2, ha2, hb2⟩ := (lineEquation_eq_slope_iff _ _ _ _).1 h2
          simp only [intersection, h1, h2, Option.some.injEq] at hp
          subst hp
          have hmem2 : ∀ r : Point α, signedArea l2a l2b r = 0 ↔ r.y = a2 * r.x + b2 := by
            intro r
            rw [signedArea_zero_slope _ _ _ hx2, ← ha2, hb2]
          refine ⟨?_, ?_, ?_⟩
          · rw [signedArea_zero_vertical _ _ _ hx1 hy1]
            exact hc1
          · rw [hmem2]
          · intro q hq1 hq2
            rw [signedArea_zero_vertical _ _ _ hx1 hy1] at hq1
            rw [hmem2] at hq2
            rw [point_eq_iff]
            constructor
            · rw [hq1, hc1]
            · rw [hq2, hq1, hc1]
        · obtain ⟨hx1, ha1, hb1⟩ := (lineEquation_eq_slope_iff _ _ _ _).1 h1
          obtain ⟨hx2, hy2, hc2⟩ := (lineEquation_eq_vertical_iff _ _ _).1 h2
          simp only [intersection, h1, h2, Option.some.injEq] at hp
          subst hp
          have hmem1 : ∀ r : Point α, signedArea l1a l1b r = 0 ↔ r.y = a1 * r.x + b1 := by
            intro r
            rw [signedArea_zero_slope _ _ _ hx1, ← ha1, hb1]
          refine ⟨?_, ?_, ?_⟩
          · rw [hmem1]
          · rw [signedArea_zero_vertical _ _ _ hx2 hy2]
            exact hc2
          · intro q hq1 hq2
            rw [hmem1] at hq1
            rw [signedArea_zero_vertical _ _ _ hx2 hy2] at hq2
            rw [point_eq_iff]
            constructor
            · rw [hq2, hc2]
            · rw [hq1, hq2, hc2]
        · obtain ⟨hx1, ha1, hb1⟩ := (lineEquation_eq_slope_iff _ _ _ _).1 h1
          obtain ⟨hx2, ha2, hb2⟩ := (lineEquation_eq_slope_iff _ _ _ _).1 h2
          simp only [intersection, h1, h2] at hp
          by_cases hs : a1 = a2
          · simp [if_pos hs] at hp
          · simp only [if_neg hs, Option.some.injEq] at hp
            subst hp
            have hΔ : a1 - a2 ≠ 0 := sub_ne_zero.mpr hs
            have hmem1 : ∀ r : Point α, signedArea l1a l1b r = 0 ↔ r.y = a1 * r.x + b1 := by
              intro r
              rw [signedArea_zero_slope _ _ _ hx1, ← ha1, hb1]
            have hmem2 : ∀ r : Point α, signedArea l2a l2b r = 0 ↔ r.y = a2 * r.x + b2 := by
              intro r
              rw [signedArea_zero_slope _ _ _ hx2, ← ha2, hb2]
            have hX : (a1 - a2) * ((b2 - b1) / (a1 - a2)) = b2 - b1 := by
              field_simp
            refine ⟨?_, ?_, ?_⟩
            · rw [hmem1]
            · rw [hmem2]
              show a1 * ((b2 - b1) / (a1 - a2)) + b1 = a2 * ((b2 - b1) / (a1 - a2)) + b2
              linear_combination hX
            · intro q hq1 hq2
              rw [hmem1] at hq1
              rw [hmem2] at hq2
              have hqx : (a1 - a2) * q.x = b2 - b1 := by linear_combination hq2 - hq1
              have hqx' : q.x = (b2 - b1) / (a1 - a2) := by
                rw [eq_div_iff hΔ]
                linear_combination hqx
              rw [point_eq_iff]
              exact ⟨hqx', by rw [hq1, hqx']⟩

theorem intersection_characterization_witness :
    intersection (⟨0, 0⟩ : Point ℚ) ⟨0, 1⟩ ⟨1, 0⟩ ⟨2, 1⟩ = some ⟨0, -1⟩ ∧
      signedArea (⟨0, 0⟩ : Point ℚ) ⟨0, 1⟩ ⟨0, -1⟩ = 0 ∧
      signedArea (⟨1, 0⟩ : Point ℚ) ⟨2, 1⟩ ⟨0, -1⟩ = 0 := by
  have h : intersection (⟨0, 0⟩ : Point ℚ) ⟨0, 1⟩ ⟨1, 0⟩ ⟨2, 1⟩ = some ⟨0, -1⟩ := by
    norm_num [intersection, lineEquation]
  have h2 := (intersection_characterization (⟨0, 0⟩ : Point ℚ) ⟨0, 1⟩ ⟨1, 0⟩ ⟨2, 1⟩).2 ⟨0, -1⟩ h
  exact ⟨h, h2.1, h2.2.1⟩

/-! ## Claim C5: the segment offsetter -/

theorem offsetPointLine_foldl_shift (d : ℝ) (ps : List (Point ℝ × Point ℝ))
    (init : List OffsetSegment) :
    ps.foldl (fun acc ab => if ab.1 = ab.2 then acc else acc ++ [offsetSeg ab.1 ab.2 d]) init =
      init ++
        ps.foldl (fun acc ab => if ab.1 = ab.2 then acc else acc ++ [offsetSeg ab.1 ab.2 d])
          [] := by
  have hfun :
      (fun (acc : List OffsetSegment) (ab : Point ℝ × Point ℝ) =>
          if ab.1 = ab.2 then acc else acc ++ [offsetSeg ab.1 ab.2 d]) =
        fun acc ab => acc ++ if ab.1 = ab.2 then [] else [offsetSeg ab.1 ab.2 d] := by
    funext acc ab
    by_cases h : ab.1 = ab.2 <;> simp [h]
  rw [hfun]
  exact foldl_concat_shift _ ps init

theorem offsetPointLine_cons₂ (a b : Point ℝ) (l : List (Point ℝ)) (d : ℝ) :
    offsetPointLine (a :: b :: l) d =
      (if a = b then [] else [offsetSeg a b d]) ++ offsetPointLine (b :: l) d := by
  unfold offsetPointLine
  show ((a, b) :: zipPairs (b :: l)).foldl _ [] = _
  rw [List.foldl_cons]
  by_cases h : a = b
  · rw [if_pos h, if_pos h, List.nil_append]
  · rw [if_neg h, if_neg h, List.nil_append]
    exact offsetPointLine_foldl_shift d (zipPairs (b :: l)) [offsetSeg a b d]

/-- Claim C5: `offsetPointLine` yields exactly one `OffsetSegment` per
consecutive pair of distinct points, whose offset heading is
`atan2(a.y - b.y, a.x - b.x) - π/2` and whose offset endpoints are the
original points translated by `(x + d·cos θ, y + d·sin θ)`; coincident
consecutive pairs are skipped, and an empty or single-point input yields the
empty list (its pair list is empty). -/
theorem offsetPointLine_spec (points : List (Point ℝ)) (d : ℝ) :
    offsetPointLine points d =
      ((points.zip points.tail).filter fun ab => ab.1 ≠ ab.2).map
        (fun ab =>
          { offsetAngle := atan2 (ab.1.y - ab.2.y) (ab.1.x - ab.2.x) - Real.pi / 2
            original := (ab.1, ab.2)
            offset :=
              (⟨ab.1.x + d * Real.cos (atan2 (ab.1.y - ab.2.y) (ab.1.x - ab.2.x) - Real.pi / 2),
                 ab.1.y + d * Real.sin (atan2 (ab.1.y - ab.2.y) (ab.1.x - ab.2.x) - Real.pi / 2)⟩,
               ⟨ab.2.x + d * Real.cos (atan2 (ab.1.y - ab.2.y) (ab.1.x - ab.2.x) - Real.pi / 2),
                 ab.2.y + d * Real.sin (atan2 (ab.1.y - ab.2.y) (ab.1.x - ab.2.x) - Real.pi / 2)⟩) }) ∧
      offsetPointLine [] d = [] ∧ ∀ p : Point ℝ, offsetPointLine [p] d = [] := by
  refine ⟨?_, rfl, fun _ => rfl⟩
  induction points with
  | nil => rfl
  | cons p l ih =>
    cases l with
    | nil => rfl
    | cons b l' =>
      rw [offsetPointLine_cons₂, ih]
      by_cases h : p = b
      · simp [h]
      · simp [h, offsetSeg, translatePoint]

/-! ## The seam cutter: step lemmas -/

theorem cutRun_zero (segs : List (Segment α)) (i : ℕ) : cutRun 0 segs i = segs :=
  rfl

theorem cutRun_succ_some (fuel : ℕ) (segs segs' : List (Segment α)) (i i' : ℕ)
    (hs : cutStep segs i = some (segs', i')) :
    cutRun (fuel + 1) segs i = cutRun fuel segs' i' := by
  simp only [cutRun, hs]

theorem cutRun_succ_none (fuel : ℕ) (segs : List (Segment α)) (i : ℕ)
    (hs : cutStep segs i = none) :
    cutRun (fuel + 1) segs i = segs := by
  simp only [cutRun, hs]

theorem backSearch_le (segs : List (Segment α)) (tgt : Segment α) :
    ∀ j j' p, backSearch segs tgt j = some (j', p) → j' ≤ j := by
  intro j
  induction j with
  | zero =>
    intro j' p h
    rw [backSearch] at h
    by_cases hc : intersects (segs[0]!).1 (segs[0]!).2 tgt.1 tgt.2
    · rw [if_pos hc] at h
      simp only [Option.some.injEq, Prod.mk.injEq] at h
      exact h.1.ge
    · rw [if_neg hc] at h
      exact absurd h (by simp)
  | succ j ihj =>
    intro j' p h
    rw [backSearch] at h
    by_cases hc : intersects (segs[j + 1]!).1 (segs[j + 1]!).2 tgt.1 tgt.2
    · rw [if_pos hc] at h
      simp only [Option.some.injEq, Prod.mk.injEq] at h
      exact h.1.ge
    · rw [if_neg hc] at h
      exact (ihj j' p h).trans (Nat.le_succ j)

theorem cutStep_some_spec (segs : List (Segment α)) (i : ℕ) (segs' : List (Segment α)) (i' : ℕ)
    (h : cutStep segs i = some (segs', i')) :
    i + 1 < segs.length ∧
      ((segs' = segs ∧ i' = i + 1) ∨
        (∃ j p, backSearch segs segs[i + 1]! i = some (j, p) ∧ j ≤ i ∧ i' = j + 1 ∧
          segs' =
            removeChunk ((segs.set j ((segs[j]!).1, p)).set (i + 1) (p, (segs[i + 1]!).2))
              (j + 1) (i - j)) ∨
        (segs' = segs.eraseIdx (i + 1) ∧ i' = i + 1)) := by
  rw [cutStep] at h
  by_cases hlen : i + 1 < segs.length
  · rw [if_pos hlen] at h
    refine ⟨hlen, ?_⟩
    by_cases hsh : (segs[i]!).2 = (segs[i + 1]!).1
    · rw [if_pos hsh] at h
      simp only [Option.some.injEq, Prod.mk.injEq] at h
      exact Or.inl ⟨h.1.symm, h.2.symm⟩
    · rw [if_neg hsh] at h
      rcases hb : backSearch segs segs[i + 1]! i with _ | ⟨j, p⟩
      · rw [hb] at h
        simp only [Option.some.injEq, Prod.mk.injEq] at h
        exact Or.inr (Or.inr ⟨h.1.symm, h.2.symm⟩)
      · rw [hb] at h
        simp only [Option.some.injEq, Prod.mk.injEq] at h
        exact Or.inr (Or.inl ⟨j, p, rfl, backSearch_le segs _ i j p hb, h.2.symm, h.1.symm⟩)
  · rw [if_neg hlen] at h
    exact absurd h (by simp)

theorem cutStep_none_of_ge (segs : List (Segment α)) (i : ℕ) (h : segs.length ≤ i + 1) :
    cutStep segs i = none := by
  rw [cutStep, if_neg (by omega)]

theorem cutStep_measure (segs : List (Segment α)) (i : ℕ) (segs' : List (Segment α)) (i' : ℕ)
    (h : cutStep segs i = some (segs', i')) :
    segs'.length - i' < segs.length - i := by
  obtain ⟨hlen, hcase⟩ := cutStep_some_spec segs i segs' i' h
  rcases hcase with ⟨rfl, rfl⟩ | ⟨j, p, hb, hj, rfl, rfl⟩ | ⟨rfl, rfl⟩
  · omega
  · simp only [removeChunk, List.length_append, List.length_take, List.length_drop,
      List.length_set]
    omega
  · rw [List.length_eraseIdx_of_lt (by omega)]
    omega

theorem cutRun_succ_eq : ∀ (k : ℕ) (segs : List (Segment α)) (i : ℕ),
    segs.length - i ≤ k → cutRun (k + 1) segs i = cutRun k segs i := by
  intro k
  induction k with
  | zero =>
    intro segs i h
    rw [cutRun_succ_none 0 segs i (cutStep_none_of_ge segs i (by omega)), cutRun_zero]
  | succ k ih =>
    intro segs i h
    rcases hs : cutStep segs i with _ | ⟨segs', i'⟩
    · rw [cutRun_succ_none _ _ _ hs, cutRun_succ_none _ _ _ hs]
    · have hm := cutStep_measure segs i segs' i' hs
      rw [cutRun_succ_some _ _ _ _ _ hs, cutRun_succ_some _ _ _ _ _ hs]
      exact ih segs' i' (by omega)

theorem cutRun_eq_of_le : ∀ (n : ℕ) (segs : List (Segment α)) (i : ℕ),
    segs.length - i ≤ n → cutRun n segs i = cutRun (segs.length - i) segs i := by
  intro n
  induction n with
  | zero =>
    intro segs i h
    have h0 : segs.length - i = 0 := by omega
    rw [h0]
  | succ n ih =>
    intro segs i h
    by_cases he : segs.length - i = n + 1
    · rw [he]
    · have h' : segs.length - i ≤ n := by omega
      rw [cutRun_succ_eq n segs i h', ih segs i h']

/-! ## Claim C8: termination of the seam-cutting scan -/

/-- Claim C8: every iteration of the outer loop either advances the cursor
`i` or strictly shrinks the segment list, so the scan cannot run forever: the
fuel iteration `cutRun` is already stable at fuel `length - cursor`, and any
larger fuel (in particular the `segments.length` used by `cutInnerAngles`)
gives the same final state. -/
theorem cutScan_terminates (segs : List (Segment α)) (i : ℕ) :
    (∀ segs' i', cutStep segs i = some (segs', i') → i < i' ∨ segs'.length < segs.length) ∧
      ∀ n, segs.length - i ≤ n → cutRun n segs i = cutRun (segs.length - i) segs i := by
  constructor
  · intro segs' i' h
    obtain ⟨hlen, hcase⟩ := cutStep_some_spec segs i segs' i' h
    rcases hcase with ⟨rfl, rfl⟩ | ⟨j, p, hb, hj, rfl, rfl⟩ | ⟨rfl, rfl⟩
    · left
      omega
    · by_cases hji : j = i
      · left
        omega
      · right
        simp only [removeChunk, List.length_append, List.length_take, List.length_drop,
          List.length_set]
        omega
    · left
      omega
  · intro n h
    exact cutRun_eq_of_le n segs i h

theorem cutScan_terminates_witness :
    cutStep [(((⟨0, 0⟩ : Point ℚ), ⟨1, 0⟩) : Segment ℚ), (⟨1, 0⟩, ⟨2, 1⟩)] 0 =
        some ([(((⟨0, 0⟩ : Point ℚ), ⟨1, 0⟩) : Segment ℚ), (⟨1, 0⟩, ⟨2, 1⟩)], 1) ∧
      (0 < 1 ∨
        ([(((⟨0, 0⟩ : Point ℚ), ⟨1, 0⟩) : Segment ℚ), (⟨1, 0⟩, ⟨2, 1⟩)] :
            List (Segment ℚ)).length <
          ([(((⟨0, 0⟩ : Point ℚ), ⟨1, 0⟩) : Segment ℚ), (⟨1, 0⟩, ⟨2, 1⟩)] :
            List (Segment ℚ)).length) ∧
      cutRun 5 [(((⟨0, 0⟩ : Point ℚ), ⟨1, 0⟩) : Segment ℚ), (⟨1, 0⟩, ⟨2, 1⟩)] 0 =
        cutRun
          (([(((⟨0, 0⟩ : Point ℚ), ⟨1, 0⟩) : Segment ℚ), (⟨1, 0⟩, ⟨2, 1⟩)] :
                List (Segment ℚ)).length - 0)
          [(((⟨0, 0⟩ : Point ℚ), ⟨1, 0⟩) : Segment ℚ), (⟨1, 0⟩, ⟨2, 1⟩)] 0 := by
  have hstep : cutStep [(((⟨0, 0⟩ : Point ℚ), ⟨1, 0⟩) : Segment ℚ), (⟨1, 0⟩, ⟨2, 1⟩)] 0 =
      some ([(((⟨0, 0⟩ : Point ℚ), ⟨1, 0⟩) : Segment ℚ), (⟨1, 0⟩, ⟨2, 1⟩)], 1) := by
    norm_num [cutStep, Point.mk.injEq]
  exact ⟨hstep, (cutScan_terminates _ 0).1 _ 1 hstep,
    (cutScan_terminates _ 0).2 5 (by norm_num)⟩

/-! ## Claim C2: what happens when the backward search is exhausted -/

/-- Claim C2 (amended): when the backward search from the cursor reaches
index 0 without finding a proper intersection with segment `i+1`, that
segment is spliced out and the cursor advances to `i + 1` (the source's
`++i`); the scan does not retry at the same cursor position. -/
theorem cutStep_drop_advances (segs : List (Segment α)) (i : ℕ)
    (hlen : i + 1 < segs.length) (hne : (segs[i]!).2 ≠ (segs[i + 1]!).1)
    (hsearch : backSearch segs segs[i + 1]! i = none) :
    cutStep segs i = some (segs.eraseIdx (i + 1), i + 1) := by
  rw [cutStep, if_pos hlen, if_neg hne, hsearch]

theorem cutStep_drop_advances_witness :
    backSearch [(((⟨0, 0⟩ : Point ℚ), ⟨4, 0⟩) : Segment ℚ), (⟨10, 10⟩, ⟨11, 10⟩)]
        ([(((⟨0, 0⟩ : Point ℚ), ⟨4, 0⟩) : Segment ℚ), (⟨10, 10⟩, ⟨11, 10⟩)][0 + 1]!) 0 =
        none ∧
      cutStep [(((⟨0, 0⟩ : Point ℚ), ⟨4, 0⟩) : Segment ℚ), (⟨10, 10⟩, ⟨11, 10⟩)] 0 =
        some
          ([(((⟨0, 0⟩ : Point ℚ), ⟨4, 0⟩) : Segment ℚ), (⟨10, 10⟩, ⟨11, 10⟩)].eraseIdx (0 + 1),
            0 + 1) := by
  have hb : backSearch [(((⟨0, 0⟩ : Point ℚ), ⟨4, 0⟩) : Segment ℚ), (⟨10, 10⟩, ⟨11, 10⟩)]
      ([(((⟨0, 0⟩ : Point ℚ), ⟨4, 0⟩) : Segment ℚ), (⟨10, 10⟩, ⟨11, 10⟩)][0 + 1]!) 0 =
      none := by
    norm_num [backSearch, intersects, signedArea]
  exact ⟨hb, cutStep_drop_advances _ 0 (by norm_num) (by norm_num [Point.mk.injEq]) hb⟩

/-- Claim C2 counterexample: on a concrete three-segment input the source's
scan (drop segment `i+1`, then `++i`) and the specified scan (drop, then
retry at the same `i`) produce different point sequences, because retrying
would re-examine the pair that the source skips. -/
theorem cutInnerAngles_drop_not_retry :
    cutInnerAngles
        [(((⟨0, 0⟩ : Point ℚ), ⟨4, 0⟩) : Segment ℚ), (⟨10, 10⟩, ⟨11, 10⟩), (⟨2, -1⟩, ⟨2, 5⟩)] ≠
      cutInnerAnglesSpecRetry
        [(((⟨0, 0⟩ : Point ℚ), ⟨4, 0⟩) : Segment ℚ), (⟨10, 10⟩, ⟨11, 10⟩),
          (⟨2, -1⟩, ⟨2, 5⟩)] := by
  have h1 : cutInnerAngles
      [(((⟨0, 0⟩ : Point ℚ), ⟨4, 0⟩) : Segment ℚ), (⟨10, 10⟩, ⟨11, 10⟩), (⟨2, -1⟩, ⟨2, 5⟩)] =
      [⟨0, 0⟩, ⟨4, 0⟩, ⟨2, 5⟩] := by
    norm_num [cutInnerAngles, cutRun, cutStep, backSearch, intersects, signedArea,
      intersection, lineEquation, removeChunk, Point.mk.injEq]
  have h2 : cutInnerAnglesSpecRetry
      [(((⟨0, 0⟩ : Point ℚ), ⟨4, 0⟩) : Segment ℚ), (⟨10, 10⟩, ⟨11, 10⟩), (⟨2, -1⟩, ⟨2, 5⟩)] =
      [⟨0, 0⟩, ⟨2, 0⟩, ⟨2, 5⟩] := by
    norm_num [cutInnerAnglesSpecRetry, cutRunRetry, cutStepRetry, backSearch, intersects,
      signedArea, intersection, lineEquation, removeChunk, Point.mk.injEq]
  rw [h1, h2]
  norm_num [Point.mk.injEq]

/-! ## Claim C9: the first output point -/

theorem head?_set_succ {γ : Type} (l : List γ) (n : ℕ) (v : γ) :
    (l.set (n + 1) v).head? = l.head? := by
  cases l <;> simp

theorem head?_eraseIdx_succ {γ : Type} (l : List γ) (n : ℕ) :
    (l.eraseIdx (n + 1)).head? = l.head? := by
  cases l <;> simp [List.eraseIdx]

theorem head?_removeChunk_succ {γ : Type} (l : List γ) (s n : ℕ) :
    (removeChunk l (s + 1) n).head? = l.head? := by
  cases l with
  | nil => simp [removeChunk]
  | cons x xs => simp [removeChunk]

theorem cutStep_head_fst (segs : List (Segment α)) (i : ℕ) (segs' : List (Segment α)) (i' : ℕ)
    (h : cutStep segs i = some (segs', i')) :
    segs' ≠ [] ∧ segs'.head?.map Prod.fst = segs.head?.map Prod.fst := by
  obtain ⟨hlen, hcase⟩ := cutStep_some_spec segs i segs' i' h
  have hne : segs ≠ [] := by
    intro he
    rw [he] at hlen
    simp at hlen
  rcases hcase with ⟨rfl, rfl⟩ | ⟨j, p, hb, hj, rfl, rfl⟩ | ⟨rfl, rfl⟩
  · exact ⟨hne, rfl⟩
  · have hh :
        (removeChunk ((segs.set j ((segs[j]!).1, p)).set (i + 1) (p, (segs[i + 1]!).2))
              (j + 1) (i - j)).head?.map Prod.fst =
          segs.head?.map Prod.fst := by
      rw [head?_removeChunk_succ, head?_set_succ]
      cases j with
      | zero =>
        cases segs with
        | nil => exact absurd rfl hne
        | cons s t => simp
      | succ j' => rw [head?_set_succ]
    refine ⟨?_, hh⟩
    intro he
    rw [he] at hh
    cases segs with
    | nil => exact hne rfl
    | cons s t => simp at hh
  · refine ⟨?_, head?_eraseIdx_succ segs i ▸ rfl⟩
    intro he
    have h2 : (segs.eraseIdx (i + 1)).head? = segs.head? := head?_eraseIdx_succ segs i
    rw [he] at h2
    cases segs with
    | nil => exact hne rfl
    | cons s t => simp at h2

theorem cutRun_head_fst : ∀ (n : ℕ) (segs : List (Segment α)) (i : ℕ),
    (cutRun n segs i).head?.map Prod.fst = segs.head?.map Prod.fst ∧
      (segs ≠ [] → cutRun n segs i ≠ []) := by
  intro n
  induction n with
  | zero => intro segs i; exact ⟨rfl, fun h => h⟩
  | succ n ih =>
    intro segs i
    rcases hs : cutStep segs i with _ | ⟨segs', i'⟩
    · rw [cutRun_succ_none _ _ _ hs]
      exact ⟨rfl, fun h => h⟩
    · have hh := cutStep_head_fst segs i segs' i' hs
      rw [cutRun_succ_some _ _ _ _ _ hs]
      constructor
      · rw [(ih segs' i').1, hh.2]
      · intro _
        exact (ih segs' i').2 hh.1

/-- Claim C9: for a nonempty input segment list the first point the seam
cutter returns is the start point of the first input segment: clipping only
rewrites segment ends (at index `j`) and starts at index `i+1 ≥ 1`, and both
splices remove only indices `≥ 1`, so `segments[0][0]` survives unchanged. -/
theorem cutInnerAngles_head (segs : List (Segment α)) (h : segs ≠ []) :
    (cutInnerAngles segs).head? = segs.head?.map Prod.fst := by
  unfold cutInnerAngles
  rcases hr : cutRun segs.length segs 0 with _ | ⟨s, ss⟩
  · exact absurd hr ((cutRun_head_fst segs.length segs 0).2 h)
  · have hf := (cutRun_head_fst segs.length segs 0).1
    rw [hr] at hf
    simp only [List.head?_cons, Option.map_some] at hf
    simp only [List.head?_cons]
    exact hf

theorem cutInnerAngles_head_witness :
    ([(((⟨0, 0⟩ : Point ℚ), ⟨1, 0⟩) : Segment ℚ)] ≠ []) ∧
      (cutInnerAngles [(((⟨0, 0⟩ : Point ℚ), ⟨1, 0⟩) : Segment ℚ)]).head? =
        ([(((⟨0, 0⟩ : Point ℚ), ⟨1, 0⟩) : Segment ℚ)].head?).map Prod.fst :=
  ⟨by simp, cutInnerAngles_head _ (by simp)⟩

/-! ## Claim C3: geometry of the outer-join arc -/

theorem translatePoint_dist (c : Point ℝ) (d θ : ℝ) :
    Real.sqrt (((translatePoint c d θ).x - c.x) ^ 2 + ((translatePoint c d θ).y - c.y) ^ 2) =
      |d| := by
  have h : ((translatePoint c d θ).x - c.x) ^ 2 + ((translatePoint c d θ).y - c.y) ^ 2 =
      d ^ 2 := by
    simp only [translatePoint]
    have ht : Real.sin θ ^ 2 + Real.cos θ ^ 2 = 1 := Real.sin_sq_add_cos_sq θ
    linear_combination d ^ 2 * ht
  rw [h, Real.sqrt_sq_eq_abs]

theorem arcMids_dist (s1 s2 : OffsetSegment) (d : ℝ) :
    ∀ p ∈ arcMids s1 s2 d,
      Real.sqrt ((p.x - s1.original.2.x) ^ 2 + (p.y - s1.original.2.y) ^ 2) = |d| := by
  intro p hp
  simp only [arcMids, List.mem_map] at hp
  obtain ⟨k, -, rfl⟩ := hp
  exact translatePoint_dist s1.original.2 d _

theorem arcPoints_shape (s1 s2 : OffsetSegment) (d : ℝ) :
    arcPoints s1 s2 d =
      s1.offset.2 ::
        (if 0 < d then (arcMids s1 s2 d).reverse else arcMids s1 s2 d) ++ [s2.offset.1] := by
  by_cases hd : 0 < d
  · rw [arcPoints, if_pos hd, if_pos hd]
    simp
  · rw [arcPoints, if_neg hd, if_neg hd]

/-- Claim C3: for an outer join (distinct offset headings, signed turn angle
times distance not strictly positive, nonzero distance) `circularArc` emits
the chain of segments pairing up the arc point list; that list starts at the
end point of `s1`'s offset segment and ends at the start point of `s2`'s
offset segment for either sign of the distance, and all its interior sampled
points lie at distance `|d|` from the shared original vertex
`s1.original[1]`. -/
theorem circularArc_outer_geometry (s1 s2 : OffsetSegment) (d : ℝ)
    (h1 : s1.offsetAngle ≠ s2.offsetAngle)
    (h2 : ¬0 < getSignedAngle s1.offset s2.offset * d) (h3 : d ≠ 0) :
    circularArc s1 s2 d = zipPairs (arcPoints s1 s2 d) ∧
      (arcPoints s1 s2 d).head? = some s1.offset.2 ∧
      (arcPoints s1 s2 d).getLast? = some s2.offset.1 ∧
      ∀ p ∈ ((arcPoints s1 s2 d).drop 1).dropLast,
        Real.sqrt ((p.x - s1.original.2.x) ^ 2 + (p.y - s1.original.2.y) ^ 2) = |d| := by
  refine ⟨by rw [circularArc, if_neg h1, if_neg h2], ?_, ?_, ?_⟩
  · rw [arcPoints_shape]
    rfl
  · rw [arcPoints_shape,
      show s1.offset.2 ::
          (if 0 < d then (arcMids s1 s2 d).reverse else arcMids s1 s2 d) ++ [s2.offset.1] =
        (s1.offset.2 ::
          (if 0 < d then (arcMids s1 s2 d).reverse else arcMids s1 s2 d)) ++ [s2.offset.1]
        from rfl,
      List.getLast?_concat]
  · rw [arcPoints_shape]
    intro p hp
    by_cases hd : 0 < d
    · rw [if_pos hd] at hp
      simp at hp
      exact arcMids_dist s1 s2 d p hp
    · rw [if_neg hd] at hp
      simp at hp
      exact arcMids_dist s1 s2 d p hp

theorem circularArc_outer_geometry_witness :
    ((0 : ℝ) ≠ 1) ∧ ((-1 : ℝ) ≠ 0) ∧
      ¬0 <
          getSignedAngle ((⟨0, 0⟩ : Point ℝ), ⟨1, 0⟩) ((⟨1, 0⟩ : Point ℝ), ⟨2, 0⟩) * (-1) ∧
      (arcPoints
            ⟨0, ((⟨0, 0⟩ : Point ℝ), ⟨1, 0⟩), ((⟨0, 0⟩ : Point ℝ), ⟨1, 0⟩)⟩
            ⟨1, ((⟨1, 0⟩ : Point ℝ), ⟨2, 0⟩), ((⟨1, 0⟩ : Point ℝ), ⟨2, 0⟩)⟩ (-1)).head? =
        some (⟨1, 0⟩ : Point ℝ) := by
  have hangle :
      ¬0 < getSignedAngle ((⟨0, 0⟩ : Point ℝ), ⟨1, 0⟩) ((⟨1, 0⟩ : Point ℝ), ⟨2, 0⟩) * (-1) := by
    norm_num [getSignedAngle, segmentAsVector, atan2, Real.arctan_zero]
  have h := circularArc_outer_geometry
    ⟨0, ((⟨0, 0⟩ : Point ℝ), ⟨1, 0⟩), ((⟨0, 0⟩ : Point ℝ), ⟨1, 0⟩)⟩
    ⟨1, ((⟨1, 0⟩ : Point ℝ), ⟨2, 0⟩), ((⟨1, 0⟩ : Point ℝ), ⟨2, 0⟩)⟩ (-1)
    (by norm_num) hangle (by norm_num)
  exact ⟨by norm_num, by norm_num, hangle, h.2.1⟩

/-! ## Claim C1: zero-offset identity, infrastructure -/

theorem translatePoint_zero (p : Point ℝ) (θ : ℝ) : translatePoint p 0 θ = p := by
  simp [translatePoint, point_eq_iff]

theorem offsetSeg_original (a b : Point ℝ) (d : ℝ) : (offsetSeg a b d).original = (a, b) :=
  rfl

theorem offsetSeg_offset_zero (a b : Point ℝ) : (offsetSeg a b 0).offset = (a, b) := by
  simp [offsetSeg, translatePoint_zero]

theorem arcMids_zero (s1 s2 : OffsetSegment) : ∀ p ∈ arcMids s1 s2 0, p = s1.original.2 := by
  intro p hp
  simp only [arcMids, List.mem_map] at hp
  obtain ⟨k, -, rfl⟩ := hp
  exact translatePoint_zero _ _

theorem circularArc_zero_mem (s1 s2 : OffsetSegment)
    (h1 : s1.offset.2 = s1.original.2) (h2 : s2.offset.1 = s1.original.2) :
    ∀ seg ∈ circularArc s1 s2 0, seg = (s1.original.2, s1.original.2) := by
  intro seg hseg
  rw [circularArc] at hseg
  by_cases hA : s1.offsetAngle = s2.offsetAngle
  · rw [if_pos hA] at hseg
    simp at hseg
  · rw [if_neg hA] at hseg
    rw [if_neg (by simp)] at hseg
    have hall : ∀ p ∈ arcPoints s1 s2 0, p = s1.original.2 := by
      intro p hp
      rw [arcPoints_shape, if_neg (lt_irrefl 0)] at hp
      simp only [List.mem_cons, List.mem_append, List.mem_singleton, List.not_mem_nil,
        or_false] at hp
      rcases hp with (rfl | hp) | rfl
      · exact h1
      · exact arcMids_zero s1 s2 p hp
      · exact h2
    obtain ⟨u, v⟩ := seg
    obtain ⟨hu, hv⟩ := List.of_mem_zip hseg
    have hv' : v ∈ arcPoints s1 s2 0 := List.mem_of_mem_tail hv
    rw [hall u hu, hall v hv']

theorem cutRun_of_chain : ∀ (n : ℕ) (segs : List (Segment α)) (i : ℕ),
    List.Chain' (fun u v : Segment α => u.2 = v.1) segs → cutRun n segs i = segs := by
  intro n
  induction n with
  | zero => intro segs i _; rfl
  | succ n ih =>
    intro segs i hch
    by_cases hlen : i + 1 < segs.length
    · have hi : i < segs.length := by omega
      have hshare : (segs[i]!).2 = (segs[i + 1]!).1 := by
        rw [getElem!_pos segs i hi, getElem!_pos segs (i + 1) hlen]
        rw [List.chain'_iff_get] at hch
        exact hch i (by omega)
      have hs : cutStep segs i = some (segs, i + 1) := by
        rw [cutStep, if_pos hlen, if_pos hshare]
      rw [cutRun_succ_some _ _ _ _ _ hs]
      exact ih segs (i + 1) hch
    · rw [cutRun_succ_none _ _ _ (cutStep_none_of_ge segs i (by omega))]

theorem cutInnerAngles_of_chain (s : Segment α) (ss : List (Segment α))
    (h : List.Chain' (fun u v : Segment α => u.2 = v.1) (s :: ss)) :
    cutInnerAngles (s :: ss) = s.1 :: (s :: ss).map (fun t => t.2) := by
  have hr : cutRun (s :: ss).length (s :: ss) 0 = s :: ss := cutRun_of_chain _ _ _ h
  simp only [cutInnerAngles, hr]

theorem joinFoldl_eq_buildJoined (o : ℝ) :
    ∀ (rest : List OffsetSegment) (S : OffsetSegment) (init : List (Segment ℝ)),
      (zipPairs (S :: rest)).foldl
          (fun acc st => acc ++ joinOuterAngles st.1 st.2 o ++ [st.2.offset]) init =
        init ++ buildJoined S rest o := by
  intro rest
  induction rest with
  | nil =>
    intro S init
    simp [zipPairs, buildJoined]
  | cons T rest ih =>
    intro S init
    rw [zipPairs_cons₂, List.foldl_cons, ih T (init ++ joinOuterAngles S T o ++ [T.offset])]
    simp [buildJoined, List.append_assoc]

theorem joinLineSegments_eq (S : OffsetSegment) (rest : List OffsetSegment) (o : ℝ) :
    joinLineSegments (S :: rest) o = cutInnerAngles (S.offset :: buildJoined S rest o) := by
  simp only [joinLineSegments]
  rw [joinFoldl_eq_buildJoined o rest S [S.offset], List.singleton_append]

theorem offsetPointLine_head_orig : ∀ (l : List (Point ℝ)) (p : Point ℝ) (d : ℝ),
    (∀ S, (offsetPointLine (p :: l) d).head? = some S → S.original.1 = p) ∧
      List.Chain' (fun S T : OffsetSegment => S.original.2 = T.original.1)
        (offsetPointLine (p :: l) d) := by
  intro l
  induction l with
  | nil =>
    intro p d
    constructor
    · intro S hS
      exact absurd hS (by simp [offsetPointLine, zipPairs])
    · have he : offsetPointLine [p] d = [] := rfl
      rw [he]
      exact List.chain'_nil
  | cons b l ih =>
    intro p d
    by_cases hpb : p = b
    · constructor
      · intro S hS
        rw [offsetPointLine_cons₂, if_pos hpb, List.nil_append] at hS
        rw [hpb]
        exact (ih b d).1 S hS
      · rw [offsetPointLine_cons₂, if_pos hpb, List.nil_append]
        exact (ih b d).2
    · constructor
      · intro S hS
        rw [offsetPointLine_cons₂, if_neg hpb, List.singleton_append, List.head?_cons] at hS
        have hSe : S = offsetSeg p b d := (Option.some.inj hS).symm
        rw [hSe]
        rfl
      · rw [offsetPointLine_cons₂, if_neg hpb, List.singleton_append, List.chain'_cons']
        constructor
        · intro T hT
          have hT1 := (ih b d).1 T (Option.mem_def.mp hT)
          rw [hT1]
          rfl
        · exact (ih b d).2

theorem offsetPointLine_zero_mem :
    ∀ pts : List (Point ℝ), ∀ S ∈ offsetPointLine pts 0,
      S.offset = S.original ∧ S.original.1 ≠ S.original.2 := by
  intro pts
  induction pts with
  | nil => intro S hS; exact absurd hS (by simp [offsetPointLine, zipPairs])
  | cons p l ih =>
    cases l with
    | nil => intro S hS; exact absurd hS (by simp [offsetPointLine, zipPairs])
    | cons b l' =>
      intro S hS
      rw [offsetPointLine_cons₂] at hS
      by_cases hpb : p = b
      · rw [if_pos hpb, List.nil_append] at hS
        exact ih S hS
      · rw [if_neg hpb, List.singleton_append, List.mem_cons] at hS
        rcases hS with rfl | hS
        · refine ⟨?_, hpb⟩
          rw [offsetSeg_offset_zero, offsetSeg_original]
        · exact ih S hS

theorem offsetPointLine_map_orig (d : ℝ) : ∀ Q : List (Point ℝ), List.Chain' (· ≠ ·) Q →
    (offsetPointLine Q d).map (fun S => S.original.2) = Q.tail := by
  intro Q
  induction Q with
  | nil => intro _; rfl
  | cons q l ih =>
    cases l with
    | nil => intro _; rfl
    | cons q1 l' =>
      intro hch
      have hne : q ≠ q1 := (List.chain'_cons.mp hch).1
      rw [offsetPointLine_cons₂, if_neg hne, List.singleton_append, List.map_cons,
        ih (List.chain'_cons.mp hch).2]
      rfl

theorem destutter'_head {γ : Type} (R : γ → γ → Prop) [DecidableRel R] :
    ∀ (l : List γ) (b : γ), ∃ t, l.destutter' R b = b :: t := by
  intro l
  induction l with
  | nil => intro b; exact ⟨[], rfl⟩
  | cons c l ih =>
    intro b
    by_cases h : R b c
    · exact ⟨_, List.destutter'_cons_pos l h⟩
    · obtain ⟨t, ht⟩ := ih b
      exact ⟨t, by rw [List.destutter'_cons_neg l h, ht]⟩

theorem offsetPointLine_destutter (d : ℝ) : ∀ (l : List (Point ℝ)) (p : Point ℝ),
    offsetPointLine (p :: l) d = offsetPointLine ((p :: l).destutter (· ≠ ·)) d := by
  intro l
  induction l with
  | nil => intro p; rw [List.destutter_singleton]
  | cons b l ih =>
    intro p
    rw [List.destutter_cons_cons]
    by_cases hpb : p = b
    · rw [if_neg (by simp [hpb]), offsetPointLine_cons₂, if_pos hpb, List.nil_append]
      subst hpb
      rw [ih p, List.destutter_cons']
    · rw [if_pos hpb, offsetPointLine_cons₂, if_neg hpb, List.singleton_append]
      obtain ⟨t, ht⟩ := destutter'_head (· ≠ ·) l b
      rw [ht, offsetPointLine_cons₂, if_neg hpb, List.singleton_append]
      congr 1
      rw [ih b, List.destutter_cons', ht]

theorem destutter'_append_const {γ : Type} [DecidableEq γ] (v : γ) :
    ∀ ks l : List γ, (∀ k ∈ ks, k = v) →
      (ks ++ l).destutter' (· ≠ ·) v = l.destutter' (· ≠ ·) v := by
  intro ks
  induction ks with
  | nil => intro l _; rfl
  | cons k ks ih =>
    intro l hall
    have hk : k = v := hall k (List.mem_cons_self k ks)
    rw [List.cons_append, List.destutter'_cons_neg (ks ++ l) (by rw [hk]; simp)]
    exact ih l fun k' h' => hall k' (List.mem_cons_of_mem k h')

theorem chain'_cons_all_const (v : Point α) :
    ∀ ks : List (Segment α), (∀ k ∈ ks, k = (v, v)) →
      ∀ s : Segment α, s.2 = v →
        List.Chain' (fun u w : Segment α => u.2 = w.1) (s :: ks) := by
  intro ks
  induction ks with
  | nil => intro _ s _; simp
  | cons k ks ih =>
    intro hall s hs
    rw [List.chain'_cons]
    constructor
    · rw [hall k (List.mem_cons_self k ks)]
      exact hs
    · exact ih (fun k' h' => hall k' (List.mem_cons_of_mem k h')) k
        (by rw [hall k (List.mem_cons_self k ks)])

theorem buildJoined_zero :
    ∀ (rest : List OffsetSegment) (S : OffsetSegment),
      (S.offset = S.original ∧ S.original.1 ≠ S.original.2) →
      (∀ T ∈ rest, T.offset = T.original ∧ T.original.1 ≠ T.original.2) →
      List.Chain' (fun U V : OffsetSegment => U.original.2 = V.original.1) (S :: rest) →
      List.Chain' (fun u v : Segment ℝ => u.2 = v.1) (S.offset :: buildJoined S rest 0) ∧
        List.destutter' (· ≠ ·) S.original.1
            ((S.offset :: buildJoined S rest 0).map (fun t => t.2)) =
          List.destutter' (· ≠ ·) S.original.1 ((S :: rest).map fun U => U.original.2) := by
  intro rest
  induction rest with
  | nil =>
    intro S hS _ _
    constructor
    · simp [buildJoined]
    · simp only [buildJoined, List.map_cons, List.map_nil]
      rw [hS.1]
  | cons T rest ih =>
    intro S hS hmem hch
    have hT := hmem T (List.mem_cons_self T rest)
    have hadj : S.original.2 = T.original.1 := (List.chain'_cons.mp hch).1
    have harc : ∀ seg ∈ circularArc S T 0, seg = (S.original.2, S.original.2) :=
      circularArc_zero_mem S T (by rw [hS.1]) (by rw [hT.1]; exact hadj.symm)
    have ihTR := ih T hT (fun U hU => hmem U (List.mem_cons_of_mem T hU))
      (List.chain'_cons.mp hch).2
    have h02 : S.offset.2 = S.original.2 := by rw [hS.1]
    constructor
    · show List.Chain' (fun u v : Segment ℝ => u.2 = v.1)
        (S.offset :: (joinOuterAngles S T 0 ++ T.offset :: buildJoined T rest 0))
      rw [show S.offset :: (joinOuterAngles S T 0 ++ T.offset :: buildJoined T rest 0) =
          (S.offset :: joinOuterAngles S T 0) ++ (T.offset :: buildJoined T rest 0) from by
        simp]
      refine List.chain'_append.mpr ⟨?_, ihTR.1, ?_⟩
      · exact chain'_cons_all_const S.original.2 (joinOuterAngles S T 0)
          (fun k hk => harc k hk) S.offset h02
      · intro x hx y hy
        have hxm : x ∈ S.offset :: joinOuterAngles S T 0 := List.mem_of_mem_getLast? hx
        have hy' : y = T.offset := by
          rw [List.head?_cons, Option.mem_def, Option.some.injEq] at hy
          exact hy.symm
        have hx2 : x.2 = S.original.2 := by
          rcases List.mem_cons.mp hxm with rfl | hxa
          · exact h02
          · rw [harc x hxa]
        rw [hx2, hy', hT.1]
        exact hadj
    · show List.destutter' (· ≠ ·) S.original.1
          ((S.offset :: (joinOuterAngles S T 0 ++ T.offset :: buildJoined T rest 0)).map
            (fun t => t.2)) =
          List.destutter' (· ≠ ·) S.original.1 ((S :: T :: rest).map fun U => U.original.2)
      simp only [List.map_cons, List.map_append]
      rw [h02]
      rw [List.destutter'_cons_pos _ hS.2, List.destutter'_cons_pos _ hS.2]
      congr 1
      have harcmap : ∀ k ∈ (joinOuterAngles S T 0).map (fun t : Segment ℝ => t.2),
          k = S.original.2 := by
        intro k hk
        obtain ⟨seg, hseg, rfl⟩ := List.mem_map.mp hk
        rw [harc seg hseg]
      rw [destutter'_append_const S.original.2 _ _ harcmap, hadj]
      have ihTR2 := ihTR.2
      simp only [List.map_cons] at ihTR2
      exact ihTR2

/-- Zero-offset identity under the value-equality rendering of the seam
cutter's `==` guard (the reading §9 of the specification prescribes for
reimplementations without shared object identity): with distance 0 every
offset segment coincides with its original segment and the arc machinery
emits only zero-length segments at the shared vertices, so the output is the
input with some points repeated, and after removing consecutive duplicates
(`List.destutter (· ≠ ·)`) on both sides the two point sequences are equal.
The program itself, whose `==` is reference equality, violates this on
collinear continuations — see `zero_offset_drops_collinear_segment`. -/
theorem zero_offset_identity (pts : List (Point ℝ))
    (h : 2 ≤ (pts.destutter (· ≠ ·)).length) :
    (joinLineSegments (offsetPointLine pts 0) 0).destutter (· ≠ ·) =
      pts.destutter (· ≠ ·) := by
  obtain ⟨p, l, rfl⟩ : ∃ p l, pts = p :: l := by
    cases pts with
    | nil => rw [List.destutter_nil] at h; simp at h
    | cons p l => exact ⟨p, l, rfl⟩
  rw [offsetPointLine_destutter 0 l p]
  have hchQ : List.Chain' (· ≠ ·) ((p :: l).destutter (· ≠ ·)) :=
    List.destutter_is_chain' _ _
  obtain ⟨q0, q1, t, hQe⟩ : ∃ q0 q1 t, (p :: l).destutter (· ≠ ·) = q0 :: q1 :: t := by
    rcases hd : (p :: l).destutter (· ≠ ·) with _ | ⟨q0, _ | ⟨q1, t⟩⟩
    · rw [hd] at h
      simp at h
    · rw [hd] at h
      simp at h
    · exact ⟨q0, q1, t, rfl⟩
  rw [hQe] at hchQ ⊢
  have hne01 : q0 ≠ q1 := (List.chain'_cons.mp hchQ).1
  have hexp : offsetPointLine (q0 :: q1 :: t) 0 =
      offsetSeg q0 q1 0 :: offsetPointLine (q1 :: t) 0 := by
    rw [offsetPointLine_cons₂, if_neg hne01, List.singleton_append]
  rw [hexp, joinLineSegments_eq]
  have hPS0 : (offsetSeg q0 q1 0).offset = (offsetSeg q0 q1 0).original ∧
      (offsetSeg q0 q1 0).original.1 ≠ (offsetSeg q0 q1 0).original.2 := by
    constructor
    · rw [offsetSeg_offset_zero, offsetSeg_original]
    · rw [offsetSeg_original]
      exact hne01
  have hchS : List.Chain' (fun U V : OffsetSegment => U.original.2 = V.original.1)
      (offsetSeg q0 q1 0 :: offsetPointLine (q1 :: t) 0) := by
    have hc := (offsetPointLine_head_orig (q1 :: t) q0 0).2
    rw [hexp] at hc
    exact hc
  obtain ⟨hchB, hdest⟩ := buildJoined_zero (offsetPointLine (q1 :: t) 0) (offsetSeg q0 q1 0)
    hPS0 (offsetPointLine_zero_mem (q1 :: t)) hchS
  rw [cutInnerAngles_of_chain _ _ hchB]
  have h01 : (offsetSeg q0 q1 0).offset.1 = q0 := by rw [offsetSeg_offset_zero]
  rw [h01, List.destutter_cons']
  have horig1 : (offsetSeg q0 q1 0).original.1 = q0 := rfl
  rw [horig1] at hdest
  rw [hdest]
  have hmap : ((offsetSeg q0 q1 0 :: offsetPointLine (q1 :: t) 0).map fun U => U.original.2) =
      q1 :: t := by
    rw [← hexp, offsetPointLine_map_orig 0 _ hchQ]
    rfl
  rw [hmap]
  exact List.destutter'_of_chain _ _ hchQ

theorem zero_offset_identity_witness :
    2 ≤ (([⟨0, 0⟩, ⟨1, 0⟩] : List (Point ℝ)).destutter (· ≠ ·)).length ∧
      (joinLineSegments (offsetPointLine [(⟨0, 0⟩ : Point ℝ), ⟨1, 0⟩] 0) 0).destutter
          (· ≠ ·) =
        ([⟨0, 0⟩, ⟨1, 0⟩] : List (Point ℝ)).destutter (· ≠ ·) := by
  have hne : (⟨0, 0⟩ : Point ℝ) ≠ ⟨1, 0⟩ := by
    intro he
    rw [point_eq_iff] at he
    exact zero_ne_one he.1
  have hlen : 2 ≤ (([⟨0, 0⟩, ⟨1, 0⟩] : List (Point ℝ)).destutter (· ≠ ·)).length := by
    rw [List.destutter_pair, if_pos hne]
    simp
  exact ⟨hlen, zero_offset_identity _ hlen⟩

/-- Claim C1 (code bug): on the valid path `[(0,0), (1,0), (2,0)]` at
distance 0 the program does not return a point sequence geometrically
equivalent to the input.  The offsetter produces two segments with identical
offset headings (a collinear continuation), so `circularArc` emits no
joining segments and the two offset arrays become adjacent in the seam
cutter with coordinate-equal but reference-distinct endpoint objects
(identifiers 1 and 2 below).  The reference-equality guard of source line
212 is therefore false, the backward search finds no proper intersection
(every `signedArea` product vanishes on collinear points), and the scan
splices the second segment out: the program returns the truncated path
`[(0,0), (1,0)]`, losing the second half of the input curve.  This
contradicts the specification's zero-offset identity (its stated primary
regression test), which the algorithm does satisfy under the value-equality
guard (`zero_offset_identity`), so the reference-equality guard on
freshly-allocated equal points is the slip. -/
theorem zero_offset_drops_collinear_segment :
    offsetPointLine [(⟨0, 0⟩ : Point ℝ), ⟨1, 0⟩, ⟨2, 0⟩] 0 =
        [offsetSeg ⟨0, 0⟩ ⟨1, 0⟩ 0, offsetSeg ⟨1, 0⟩ ⟨2, 0⟩ 0] ∧
      (offsetSeg (⟨0, 0⟩ : Point ℝ) ⟨1, 0⟩ 0).offsetAngle =
        (offsetSeg (⟨1, 0⟩ : Point ℝ) ⟨2, 0⟩ 0).offsetAngle ∧
      circularArc (offsetSeg (⟨0, 0⟩ : Point ℝ) ⟨1, 0⟩ 0) (offsetSeg ⟨1, 0⟩ ⟨2, 0⟩ 0) 0 =
        [] ∧
      (offsetSeg (⟨0, 0⟩ : Point ℝ) ⟨1, 0⟩ 0).offset = (⟨0, 0⟩, ⟨1, 0⟩) ∧
      (offsetSeg (⟨1, 0⟩ : Point ℝ) ⟨2, 0⟩ 0).offset = (⟨1, 0⟩, ⟨2, 0⟩) ∧
      cutInnerAnglesRef
          [((⟨0, ⟨0, 0⟩⟩ : PointObj ℝ), ⟨1, ⟨1, 0⟩⟩), (⟨2, ⟨1, 0⟩⟩, ⟨3, ⟨2, 0⟩⟩)] 4 =
        [⟨0, 0⟩, ⟨1, 0⟩] ∧
      ([(⟨0, 0⟩ : Point ℝ), ⟨1, 0⟩].destutter (· ≠ ·) ≠
        ([⟨0, 0⟩, ⟨1, 0⟩, ⟨2, 0⟩] : List (Point ℝ)).destutter (· ≠ ·)) := by
  have h01 : (⟨0, 0⟩ : Point ℝ) ≠ ⟨1, 0⟩ := by
    intro he
    rw [point_eq_iff] at he
    exact zero_ne_one he.1
  have h12 : (⟨1, 0⟩ : Point ℝ) ≠ ⟨2, 0⟩ := by
    intro he
    rw [point_eq_iff] at he
    norm_num at he
  have hangle : (offsetSeg (⟨0, 0⟩ : Point ℝ) ⟨1, 0⟩ 0).offsetAngle =
      (offsetSeg (⟨1, 0⟩ : Point ℝ) ⟨2, 0⟩ 0).offsetAngle := by
    norm_num [offsetSeg]
  refine ⟨?_, hangle, ?_, offsetSeg_offset_zero _ _, offsetSeg_offset_zero _ _, ?_, ?_⟩
  · rw [offsetPointLine_cons₂, if_neg h01, offsetPointLine_cons₂, if_neg h12]
    rfl
  · rw [circularArc, if_pos hangle]
  · norm_num [cutInnerAnglesRef, cutRunRef, cutStepRef, backSearchRef, intersects,
      signedArea, Point.mk.injEq]
  · have hL : ([(⟨0, 0⟩ : Point ℝ), ⟨1, 0⟩].destutter (· ≠ ·)) = [⟨0, 0⟩, ⟨1, 0⟩] := by
      rw [List.destutter_pair, if_pos h01]
    have hch : List.Chain' (· ≠ ·) ([⟨0, 0⟩, ⟨1, 0⟩, ⟨2, 0⟩] : List (Point ℝ)) := by
      rw [List.chain'_cons, List.chain'_cons]
      exact ⟨h01, h12, List.chain'_singleton _⟩
    have hR : (([⟨0, 0⟩, ⟨1, 0⟩, ⟨2, 0⟩] : List (Point ℝ)).destutter (· ≠ ·)) =
        [⟨0, 0⟩, ⟨1, 0⟩, ⟨2, 0⟩] := List.destutter_of_chain' _ _ hch
    rw [hL, hR]
    intro he
    have hlen := congrArg List.length he
    simp at hlen

end PolylineOffset
